import Mathlib

/-!
Verification of the camera / transform engine of `src/canvas.cpp` (fstl).

Floating-point scalars are modelled as exact real numbers (every finite
IEEE value is a real number, and the claims are all stated "within floating
tolerance", i.e. about the exact-arithmetic ideal the float code tracks).
The Qt matrix/vector primitives (`QVector3D`, `QMatrix4x4`) are external
collaborators of the repository; they are embedded below with their
documented semantics: 4x4 matrices acting on column vectors, `scale` and
`translate` post-multiplying, `operator*(QMatrix4x4, QVector3D)` mapping
the vector as a point with a perspective division on the final
w component, `mapVector` applying only the upper 3x3 block, and
`inverted()` the matrix inverse.
-/

noncomputable section

namespace Fstl

/-- Embedding of `QVector3D`: a 3-vector of real scalars. -/
@[ext]
structure QVec3 where
  x : ℝ
  y : ℝ
  z : ℝ

namespace QVec3

instance : Add QVec3 := ⟨fun a b => ⟨a.x + b.x, a.y + b.y, a.z + b.z⟩⟩
instance : Sub QVec3 := ⟨fun a b => ⟨a.x - b.x, a.y - b.y, a.z - b.z⟩⟩
instance : Neg QVec3 := ⟨fun a => ⟨-a.x, -a.y, -a.z⟩⟩
instance : SMul ℝ QVec3 := ⟨fun c a => ⟨c * a.x, c * a.y, c * a.z⟩⟩

/-- Division `QVector3D / float` divides componentwise. -/
instance : HDiv QVec3 ℝ QVec3 := ⟨fun a c => ⟨a.x / c, a.y / c, a.z / c⟩⟩

@[simp] lemma add_x (a b : QVec3) : (a + b).x = a.x + b.x := rfl
@[simp] lemma add_y (a b : QVec3) : (a + b).y = a.y + b.y := rfl
@[simp] lemma add_z (a b : QVec3) : (a + b).z = a.z + b.z := rfl
@[simp] lemma sub_x (a b : QVec3) : (a - b).x = a.x - b.x := rfl
@[simp] lemma sub_y (a b : QVec3) : (a - b).y = a.y - b.y := rfl
@[simp] lemma sub_z (a b : QVec3) : (a - b).z = a.z - b.z := rfl
@[simp] lemma neg_x (a : QVec3) : (-a).x = -a.x := rfl
@[simp] lemma neg_y (a : QVec3) : (-a).y = -a.y := rfl
@[simp] lemma neg_z (a : QVec3) : (-a).z = -a.z := rfl
@[simp] lemma smul_x (c : ℝ) (a : QVec3) : (c • a).x = c * a.x := rfl
@[simp] lemma smul_y (c : ℝ) (a : QVec3) : (c • a).y = c * a.y := rfl
@[simp] lemma smul_z (c : ℝ) (a : QVec3) : (c • a).z = c * a.z := rfl
@[simp] lemma div_x (a : QVec3) (c : ℝ) : (a / c).x = a.x / c := rfl
@[simp] lemma div_y (a : QVec3) (c : ℝ) : (a / c).y = a.y / c := rfl
@[simp] lemma div_z (a : QVec3) (c : ℝ) : (a / c).z = a.z / c := rfl

@[simp] lemma neg_neg' (a : QVec3) : - -a = a := by
  ext <;> simp

/-- Semantics of `QVector3D::length()`: the Euclidean norm. -/
def length (a : QVec3) : ℝ := Real.sqrt (a.x ^ 2 + a.y ^ 2 + a.z ^ 2)

/-- Semantics of `QVector3D::dotProduct`. -/
def dot (a b : QVec3) : ℝ := a.x * b.x + a.y * b.y + a.z * b.z

/-- Semantics of `QVector3D::crossProduct`. -/
def cross (a b : QVec3) : QVec3 :=
  ⟨a.y * b.z - a.z * b.y, a.z * b.x - a.x * b.z, a.x * b.y - a.y * b.x⟩

end QVec3

/-- Embedding of `QMatrix4x4`: a 4x4 real matrix acting on column vectors. -/
abbrev Mat4 := Matrix (Fin 4) (Fin 4) ℝ

/-- Semantics of `QMatrix4x4::scale(sx, sy, sz)`: post-multiplies by a scaling, which is
implemented by scaling the first three columns in place. -/
def qscale3 (m : Mat4) (sx sy sz : ℝ) : Mat4 :=
  Matrix.of fun i j =>
    m i j * (if j = 0 then sx else if j = 1 then sy else if j = 2 then sz else 1)

/-- Semantics of `QMatrix4x4::translate(v)`: post-multiplies by a translation, which is
implemented by adding a combination of the first three columns to the
fourth column. -/
def qtranslate (m : Mat4) (v : QVec3) : Mat4 :=
  Matrix.of fun i j =>
    if j = 3 then m i 0 * v.x + m i 1 * v.y + m i 2 * v.z + m i 3 else m i j

/-- Writing a single entry, as in `m(3, 2) = perspective`. -/
def setEntry (m : Mat4) (r c : Fin 4) (a : ℝ) : Mat4 :=
  Matrix.of fun i j => if i = r ∧ j = c then a else m i j

/-- A diagonal scaling matrix (the spec's `Scale`). -/
def scaleMat (sx sy sz : ℝ) : Mat4 :=
  Matrix.of fun i j =>
    if i = j then (if i = 0 then sx else if i = 1 then sy else if i = 2 then sz else 1)
    else 0

/-- A translation matrix (the spec's `Translate`). -/
def translateMat (v : QVec3) : Mat4 :=
  Matrix.of fun i j =>
    if j = 3 then (if i = 0 then v.x else if i = 1 then v.y else if i = 2 then v.z else 1)
    else if i = j then 1 else 0

/-- Semantics of `operator*(QMatrix4x4, QVector3D)`: maps the vector as a point
`(x, y, z, 1)` and divides by the resulting w component unless it is 1. -/
def mapPoint (m : Mat4) (v : QVec3) : QVec3 :=
  let X := m 0 0 * v.x + m 0 1 * v.y + m 0 2 * v.z + m 0 3
  let Y := m 1 0 * v.x + m 1 1 * v.y + m 1 2 * v.z + m 1 3
  let Z := m 2 0 * v.x + m 2 1 * v.y + m 2 2 * v.z + m 2 3
  let W := m 3 0 * v.x + m 3 1 * v.y + m 3 2 * v.z + m 3 3
  if W = 1 then ⟨X, Y, Z⟩ else ⟨X / W, Y / W, Z / W⟩

/-- Semantics of `QMatrix4x4::mapVector`: applies only the upper 3x3 block. -/
def mapVector (m : Mat4) (v : QVec3) : QVec3 :=
  ⟨m 0 0 * v.x + m 0 1 * v.y + m 0 2 * v.z,
   m 1 0 * v.x + m 1 1 * v.y + m 1 2 * v.z,
   m 2 0 * v.x + m 2 1 * v.y + m 2 2 * v.z⟩

/-- Semantics of `QMatrix4x4::inverted()`: the matrix inverse. -/
def inverted (m : Mat4) : Mat4 := m⁻¹

/-- The camera state owned by `Canvas`: the orientation matrix
`currentTransform` plus the `center`, `scale`, `zoom` and `perspective`
scalars. -/
structure CameraState where
  currentTransform : Mat4
  center : QVec3
  scale : ℝ
  zoom : ℝ
  perspective : ℝ

/-- Embedding of `Canvas::orient_matrix`: returns `currentTransform` unchanged. -/
def orient_matrix (st : CameraState) : Mat4 := st.currentTransform

/-- Embedding of `Canvas::transform_matrix`: `m = orient_matrix(); m.scale(scale);
m.translate(-center)`. -/
def transform_matrix (st : CameraState) : Mat4 :=
  qtranslate (qscale3 (orient_matrix st) st.scale st.scale st.scale) (-st.center)

/-- Embedding of `Canvas::aspect_matrix`, a function of the viewport size. -/
def aspect_matrix (w h : ℝ) : Mat4 :=
  if h < w then qscale3 1 (-h / w) 1 (0.5 : ℝ)
  else qscale3 1 (-1) (w / h) (0.5 : ℝ)

/-- Embedding of `Canvas::view_matrix`: `m = aspect_matrix(); m.scale(zoom, zoom, 1);
m(3, 2) = perspective`. -/
def view_matrix (st : CameraState) (w h : ℝ) : Mat4 :=
  setEntry (qscale3 (aspect_matrix w h) st.zoom st.zoom 1) 3 2 st.perspective

/-- The x entry of the aspect scaling: `-height/width` for wide viewports,
`-1` otherwise (the sign flip is present in both branches). -/
def aspectX (w h : ℝ) : ℝ := if h < w then -h / w else -1

/-- The y entry of the aspect scaling: `1` for wide viewports,
`width/height` otherwise. -/
def aspectY (w h : ℝ) : ℝ := if h < w then 1 else w / h

/-- The explicit shape of the view matrix: a diagonal `(ax, ay, 0.5)`
scaling with the row-3, column-2 entry holding the perspective factor. -/
def viewMat (ax ay p : ℝ) : Mat4 :=
  Matrix.of fun i j =>
    if i = 0 ∧ j = 0 then ax
    else if i = 1 ∧ j = 1 then ay
    else if i = 2 ∧ j = 2 then (0.5 : ℝ)
    else if i = 3 ∧ j = 2 then p
    else if i = 3 ∧ j = 3 then 1
    else 0

/-- One iteration of the wheel loop for a negative delta:
`invertZoom ? zoom /= 1.001 : zoom *= 1.001`. -/
def zoomStepDown (invert : Bool) (z : ℝ) : ℝ :=
  if invert then z / 1.001 else z * 1.001

/-- One iteration of the wheel loop for a positive delta:
`invertZoom ? zoom *= 1.001 : zoom /= 1.001`. -/
def zoomStepUp (invert : Bool) (z : ℝ) : ℝ :=
  if invert then z * 1.001 else z / 1.001

/-- The zoom update of `Canvas::wheelEvent`: the per-unit step applied
`|delta|` times, with the branch chosen by the sign of the delta. -/
def wheelZoom (z : ℝ) (d : ℤ) (invert : Bool) : ℝ :=
  if d < 0 then (zoomStepDown invert)^[d.natAbs] z
  else if 0 < d then (zoomStepUp invert)^[d.natAbs] z
  else z

/-- Semantics of `QMatrix4x4::rotate(angle, axis)`: post-multiplies by the axis-angle
rotation for the axis normalized when its squared length is neither 1
nor 0, with the angle in degrees. -/
def rotMat (angle : ℝ) (ax : QVec3) : Mat4 :=
  let len := ax.x ^ 2 + ax.y ^ 2 + ax.z ^ 2
  let u : QVec3 :=
    if len = 1 ∨ len = 0 then ax
    else ⟨ax.x / Real.sqrt len, ax.y / Real.sqrt len, ax.z / Real.sqrt len⟩
  let c := Real.cos (angle * Real.pi / 180)
  let s := Real.sin (angle * Real.pi / 180)
  let ic := 1 - c
  Matrix.of
    ![![u.x * u.x * ic + c, u.x * u.y * ic - u.z * s, u.x * u.z * ic + u.y * s, 0],
      ![u.x * u.y * ic + u.z * s, u.y * u.y * ic + c, u.y * u.z * ic - u.x * s, 0],
      ![u.x * u.z * ic - u.y * s, u.y * u.z * ic + u.x * s, u.z * u.z * ic + c, 0],
      ![0, 0, 0, 1]]

/-- Application of `m.rotate(angle, axis)` as a post-multiplication. -/
def qrotate (m : Mat4) (angle : ℝ) (ax : QVec3) : Mat4 := m * rotMat angle ax

/-- The canonical initial orientation built by `Canvas::resetTransform`:
identity, then the three `rotate` calls. -/
def initialTransform : Mat4 :=
  qrotate (qrotate (qrotate 1 (-90) ⟨1, 0, 0⟩) (180 + 15) ⟨0, 0, 1⟩)
    15 ⟨1, -Real.sin (Real.pi / 12), 0⟩

/-- Embedding of `Canvas::resetTransform`: rebuilds `currentTransform` from the
identity via the three canonical rotations and sets `zoom = 1`. -/
def resetTransform (st : CameraState) : CameraState :=
  { st with currentTransform := initialTransform, zoom := 1 }

/-- Embedding of `Canvas::load_mesh` restricted to its camera-state effect: on a fresh
load it recomputes `center` and `scale` from the bounding box, resets
`zoom`, and optionally calls `resetTransform`; on a reload it leaves the
camera untouched. -/
def load_mesh (st : CameraState) (lower upper : QVec3)
    (is_reload resetTransformOnLoad : Bool) : CameraState :=
  if is_reload then st
  else
    let st' := { st with center := (lower + upper) / (2 : ℝ),
                         scale := 2 / (upper - lower).length,
                         zoom := (1 : ℝ) }
    if resetTransformOnLoad then resetTransform st' else st'

/-- Embedding of `Canvas::changeMouseCoordinates`: pixel position to the `[-1, 1]`
referential with the origin at the widget center. -/
def changeMouseCoordinates (w h px py : ℝ) : ℝ × ℝ :=
  (px / (w / 2) - 1, py / (h / 2) - 1)

/-- The hemisphere mapping of `Canvas::calcArcballTransform`
(lines 287-308): inside the unit disc take `z = sqrt(1 - x^2 - y^2)`,
outside normalize to the unit circle with `z = 0`. -/
def arcballVec (x y : ℝ) : QVec3 :=
  let psq := x * x + y * y
  if psq ≤ 1 then ⟨x, y, Real.sqrt (1 - psq)⟩
  else ⟨x / Real.sqrt psq, y / Real.sqrt psq, 0⟩

/-- The rotation angle of `Canvas::calcArcballTransform` (line 319):
`acos(min(1, dot(v1, v2))) * 180 / pi`. -/
def arcballAngle (p1 p2 : ℝ × ℝ) : ℝ :=
  Real.arccos (min 1 (QVec3.dot (arcballVec p1.1 p1.2) (arcballVec p2.1 p2.2)))
    * 180 / Real.pi

/-- Embedding of `Canvas::calcArcballTransform`: rotate `currentTransform` by the
arcball angle about the inverse-mapped cross product of the two
hemisphere vectors. -/
def calcArcballTransform (st : CameraState) (p1 p2 : ℝ × ℝ) : CameraState :=
  let v1 := arcballVec p1.1 p1.2
  let v2 := arcballVec p2.1 p2.2
  let axisObj := mapVector (inverted st.currentTransform) (QVec3.cross v1 v2)
  { st with currentTransform := qrotate st.currentTransform (arcballAngle p1 p2) axisObj }

/-- The unprojection used by both `wheelEvent` and the pan branch of
`mouseMoveEvent`: `transform_matrix().inverted() * view_matrix().inverted()
* v`. -/
def unprojectPoint (st : CameraState) (w h : ℝ) (v : QVec3) : QVec3 :=
  mapPoint (inverted (transform_matrix st) * inverted (view_matrix st w h)) v

/-- The cursor vector built by `Canvas::wheelEvent`:
`(1 - x/(0.5 w), y/(0.5 h) - 1, 0)`. -/
def wheelVec (w h px py : ℝ) : QVec3 :=
  ⟨1 - px / (0.5 * w), py / (0.5 * h) - 1, 0⟩

/-- Embedding of `Canvas::wheelEvent`: unproject the cursor vector, update the zoom,
unproject again, and shift `center` by the difference. -/
def wheelEvent (st : CameraState) (invert : Bool) (w h px py : ℝ) (d : ℤ) :
    CameraState :=
  let v := wheelVec w h px py
  let a := unprojectPoint st w h v
  let st1 := { st with zoom := wheelZoom st.zoom d invert }
  let b := unprojectPoint st1 w h v
  { st1 with center := st1.center + (b - a) }

/-- The right-button branch of `Canvas::mouseMoveEvent`: `center` is
assigned the unprojection of the pixel-delta vector. -/
def mouseMoveRight (st : CameraState) (w h dx dy : ℝ) : CameraState :=
  { st with center :=
      (unprojectPoint st w h ⟨-dx / (0.5 * w), dy / (0.5 * h), 0⟩) }

/-- The interactive operations that can mutate the camera state. -/
inductive CanvasOp where
  | wheel (px py : ℝ) (d : ℤ)
  | pan (dx dy : ℝ)
  | arc (p1 p2 : ℝ × ℝ)
  | reset
  | load (lower upper : QVec3) (is_reload resetOnLoad : Bool)

/-- Dispatch one operation to its handler. -/
def applyOp (invert : Bool) (w h : ℝ) (st : CameraState) : CanvasOp → CameraState
  | .wheel px py d => wheelEvent st invert w h px py d
  | .pan dx dy => mouseMoveRight st w h dx dy
  | .arc p1 p2 => calcArcballTransform st p1 p2
  | .reset => resetTransform st
  | .load lower upper r ro => load_mesh st lower upper r ro

/-- A whole interaction session: a sequence of operations. -/
def applyOps (invert : Bool) (w h : ℝ) (st : CameraState)
    (ops : List CanvasOp) : CameraState :=
  ops.foldl (applyOp invert w h) st

/-- The in-place column operations of `scale` agree with post-multiplying
by the diagonal scaling matrix. -/
lemma qscale3_eq_mul (m : Mat4) (sx sy sz : ℝ) :
    qscale3 m sx sy sz = m * scaleMat sx sy sz := by
  ext i j
  fin_cases i <;> fin_cases j <;>
    simp [qscale3, scaleMat, Matrix.mul_apply, Fin.sum_univ_four]

/-- The in-place column operations of `translate` agree with
post-multiplying by the translation matrix. -/
lemma qtranslate_eq_mul (m : Mat4) (v : QVec3) :
    qtranslate m v = m * translateMat v := by
  ext i j
  fin_cases i <;> fin_cases j <;>
    simp [qtranslate, translateMat, Matrix.mul_apply, Fin.sum_univ_four]

/-- Closed product form of the transform matrix. -/
lemma transform_matrix_eq (st : CameraState) :
    transform_matrix st =
      st.currentTransform * scaleMat st.scale st.scale st.scale *
        translateMat (-st.center) := by
  rw [transform_matrix, qscale3_eq_mul, qtranslate_eq_mul, orient_matrix]

/-- C5: for every camera state, `transform_matrix` is the composition
`Orient · Scale(scale) · Translate(-center)`, in that order, acting
right-to-left on column vectors. -/
theorem transform_matrix_is_orient_scale_translate (st : CameraState) :
    transform_matrix st =
      st.currentTransform * scaleMat st.scale st.scale st.scale *
        translateMat (-st.center) :=
  transform_matrix_eq st

/-- Scaling the identity in place gives the diagonal scaling matrix. -/
lemma qscale3_one (sx sy sz : ℝ) : qscale3 1 sx sy sz = scaleMat sx sy sz := by
  ext i j
  fin_cases i <;> fin_cases j <;> simp [qscale3, scaleMat, Matrix.one_apply]

/-- Branch-free closed form of the aspect matrix. -/
lemma aspect_matrix_eq (w h : ℝ) :
    aspect_matrix w h = scaleMat (aspectX w h) (aspectY w h) (0.5 : ℝ) := by
  by_cases hc : h < w <;> simp [aspect_matrix, aspectX, aspectY, hc, qscale3_one]

/-- Closed form of the view matrix: the aspect diagonal scaled by `zoom`
in x and y, with the `(3, 2)` entry holding `perspective`. -/
lemma view_matrix_eq (st : CameraState) (w h : ℝ) :
    view_matrix st w h =
      viewMat (aspectX w h * st.zoom) (aspectY w h * st.zoom) st.perspective := by
  rw [view_matrix, aspect_matrix_eq]
  ext i j
  fin_cases i <;> fin_cases j <;> simp [setEntry, qscale3, scaleMat, viewMat]

/-- C6: for a positive viewport, `aspect_matrix` scales x by
`-height/width` (wide case) or `-1`, y by `1` or `width/height`, z by
`0.5`, and `view_matrix` is the aspect diagonal further scaled by `zoom`
in x and y only, with the row-3, column-2 entry set to `perspective`. -/
theorem aspect_and_view_matrix_shape (st : CameraState) (w h : ℝ)
    (hw : 0 < w) (hh : 0 < h) :
    (h < w → aspect_matrix w h = scaleMat (-h / w) 1 (0.5 : ℝ) ∧
      view_matrix st w h =
        viewMat (-h / w * st.zoom) (1 * st.zoom) st.perspective) ∧
    (¬h < w → aspect_matrix w h = scaleMat (-1) (w / h) (0.5 : ℝ) ∧
      view_matrix st w h =
        viewMat (-1 * st.zoom) (w / h * st.zoom) st.perspective) := by
  constructor <;> intro hc <;>
    constructor <;> simp [aspect_matrix_eq, view_matrix_eq, aspectX, aspectY, hc]

/-- Witness for C6 at the spec scenario viewport 800x600. -/
theorem aspect_and_view_matrix_shape_witness :
    (0 : ℝ) < 800 ∧ (0 : ℝ) < 600 ∧ (600 : ℝ) < 800 ∧
    aspect_matrix 800 600 = scaleMat (-600 / 800) 1 (0.5 : ℝ) ∧
    view_matrix ⟨1, ⟨0, 0, 0⟩, 1, 1, 0⟩ 800 600 =
      viewMat (-600 / 800 * 1) (1 * 1) 0 := by
  refine ⟨by norm_num, by norm_num, by norm_num, ?_, ?_⟩
  · exact ((aspect_and_view_matrix_shape ⟨1, ⟨0, 0, 0⟩, 1, 1, 0⟩ 800 600
      (by norm_num) (by norm_num)).1 (by norm_num)).1
  · exact ((aspect_and_view_matrix_shape ⟨1, ⟨0, 0, 0⟩, 1, 1, 0⟩ 800 600
      (by norm_num) (by norm_num)).1 (by norm_num)).2

/-- Iterating multiplication by a constant multiplies by its power. -/
lemma iterate_mul_eq (c : ℝ) (n : ℕ) : ∀ z : ℝ, (fun t => t * c)^[n] z = z * c ^ n := by
  induction n with
  | zero => intro z; simp
  | succ n ih =>
    intro z
    rw [Function.iterate_succ_apply, ih]
    ring

/-- Iterating division by a constant divides by its power. -/
lemma iterate_div_eq (c : ℝ) (n : ℕ) : ∀ z : ℝ, (fun t => t / c)^[n] z = z / c ^ n := by
  induction n with
  | zero => intro z; simp
  | succ n ih =>
    intro z
    rw [Function.iterate_succ_apply, ih]
    rw [div_div, ← pow_succ']

/-- C4: the wheel loop compounds the per-unit factor 1.001
multiplicatively, `|delta|` times, with the direction chosen by the sign
of the delta and the invert-zoom flag; in particular 120 units with the
flag off divide `zoom` by 1.001 per unit, 120 times. -/
theorem wheel_zoom_compounds (z : ℝ) (d : ℤ) :
    (0 < d → wheelZoom z d false = z / 1.001 ^ d.natAbs ∧
      wheelZoom z d true = z * 1.001 ^ d.natAbs) ∧
    (d < 0 → wheelZoom z d false = z * 1.001 ^ d.natAbs ∧
      wheelZoom z d true = z / 1.001 ^ d.natAbs) ∧
    wheelZoom z 120 false = z * (1 / 1.001) ^ 120 := by
  have hup0 : zoomStepUp false = fun t : ℝ => t / 1.001 := rfl
  have hup1 : zoomStepUp true = fun t : ℝ => t * 1.001 := rfl
  have hdn0 : zoomStepDown false = fun t : ℝ => t * 1.001 := rfl
  have hdn1 : zoomStepDown true = fun t : ℝ => t / 1.001 := rfl
  refine ⟨fun hd => ?_, fun hd => ?_, ?_⟩
  · have hneg : ¬d < 0 := by omega
    rw [wheelZoom, wheelZoom, if_neg hneg, if_neg hneg, if_pos hd, if_pos hd,
      hup0, hup1, iterate_div_eq, iterate_mul_eq]
    exact ⟨rfl, rfl⟩
  · rw [wheelZoom, wheelZoom, if_pos hd, if_pos hd, hdn0, hdn1,
      iterate_div_eq, iterate_mul_eq]
    exact ⟨rfl, rfl⟩
  · have h120 : (0 : ℤ) < 120 := by norm_num
    have hneg : ¬(120 : ℤ) < 0 := by norm_num
    rw [wheelZoom, if_neg hneg, if_pos h120, hup0, iterate_div_eq,
      div_pow, one_pow, mul_one_div]
    norm_num

/-- Witness for C4: 120 units, invert off, prior zoom 2. -/
theorem wheel_zoom_compounds_witness :
    (0 : ℤ) < 120 ∧ wheelZoom 2 120 false = 2 / 1.001 ^ (120 : ℤ).natAbs :=
  ⟨by norm_num, ((wheel_zoom_compounds 2 120).1 (by norm_num)).1⟩

/-- Iterating a positivity-preserving step preserves positivity. -/
lemma iterate_pos {f : ℝ → ℝ} (hf : ∀ t, 0 < t → 0 < f t) :
    ∀ (n : ℕ) (z : ℝ), 0 < z → 0 < f^[n] z := by
  intro n
  induction n with
  | zero => intro z hz; simpa using hz
  | succ n ih =>
    intro z hz
    rw [Function.iterate_succ_apply]
    exact ih _ (hf z hz)

/-- Each wheel iteration keeps the zoom positive. -/
lemma zoomStepDown_pos (invert : Bool) (t : ℝ) (ht : 0 < t) :
    0 < zoomStepDown invert t := by
  cases invert <;> simp only [zoomStepDown, if_true, if_false, Bool.false_eq_true]
  · exact mul_pos ht (by norm_num)
  · exact div_pos ht (by norm_num)

/-- Each wheel iteration keeps the zoom positive. -/
lemma zoomStepUp_pos (invert : Bool) (t : ℝ) (ht : 0 < t) :
    0 < zoomStepUp invert t := by
  cases invert <;> simp only [zoomStepUp, if_true, if_false, Bool.false_eq_true]
  · exact div_pos ht (by norm_num)
  · exact mul_pos ht (by norm_num)

/-- The wheel zoom update preserves strict positivity. -/
lemma wheelZoom_pos (invert : Bool) (d : ℤ) {z : ℝ} (hz : 0 < z) :
    0 < wheelZoom z d invert := by
  rw [wheelZoom]
  split
  · exact iterate_pos (zoomStepDown_pos invert) _ z hz
  split
  · exact iterate_pos (zoomStepUp_pos invert) _ z hz
  · exact hz

/-- Every interactive operation keeps the zoom positive. -/
lemma applyOp_zoom_pos (invert : Bool) (w h : ℝ) (st : CameraState)
    (op : CanvasOp) (hz : 0 < st.zoom) : 0 < (applyOp invert w h st op).zoom := by
  cases op with
  | wheel px py d => exact wheelZoom_pos invert d hz
  | pan dx dy => exact hz
  | arc p1 p2 => exact hz
  | reset => norm_num [applyOp, resetTransform]
  | load lower upper r ro =>
    cases r <;> cases ro <;>
      simp only [applyOp, load_mesh, resetTransform, Bool.false_eq_true,
        if_true, if_false] <;>
      first | exact hz | norm_num

/-- C9: starting from zoom 1, every sequence of interactive operations
(wheel, pan, arcball, reset view, mesh load) leaves the zoom strictly
positive — it never reaches exactly 0. -/
theorem zoom_never_zero (st : CameraState) (hz : st.zoom = 1)
    (invert : Bool) (w h : ℝ) (ops : List CanvasOp) :
    0 < (applyOps invert w h st ops).zoom ∧
      (applyOps invert w h st ops).zoom ≠ 0 := by
  have key : ∀ (l : List CanvasOp) (s : CameraState), 0 < s.zoom →
      0 < (applyOps invert w h s l).zoom := by
    intro l
    induction l with
    | nil => intro s hs; simpa [applyOps] using hs
    | cons op t ih =>
      intro s hs
      simp only [applyOps, List.foldl_cons]
      exact ih (applyOp invert w h s op) (applyOp_zoom_pos invert w h s op hs)
  have h1 := key ops st (by rw [hz]; norm_num)
  exact ⟨h1, ne_of_gt h1⟩

/-- Witness for C9: a concrete zoom-out followed by a reset. -/
theorem zoom_never_zero_witness :
    (⟨1, ⟨0, 0, 0⟩, 1, 1, 0⟩ : CameraState).zoom = 1 ∧
    0 < (applyOps false 2 2 ⟨1, ⟨0, 0, 0⟩, 1, 1, 0⟩
      [CanvasOp.wheel 0 0 (-120), CanvasOp.reset]).zoom :=
  ⟨rfl, (zoom_never_zero ⟨1, ⟨0, 0, 0⟩, 1, 1, 0⟩ rfl false 2 2
    [CanvasOp.wheel 0 0 (-120), CanvasOp.reset]).1⟩

/-- C7: on a fresh load the camera is framed from the bounding box —
`center = (min + max) / 2`, `scale = 2 / |max - min|`, `zoom = 1`, and the
orientation is reset to the canonical initial rotation exactly when the
reset-transform-on-load preference is set; on a reload the whole camera
state is untouched. -/
theorem load_mesh_framing (st : CameraState) (lower upper : QVec3)
    (resetOnLoad : Bool) :
    ((load_mesh st lower upper false resetOnLoad).center =
        (lower + upper) / (2 : ℝ) ∧
      (load_mesh st lower upper false resetOnLoad).scale =
        2 / (upper - lower).length ∧
      (load_mesh st lower upper false resetOnLoad).zoom = 1 ∧
      (load_mesh st lower upper false resetOnLoad).currentTransform =
        (if resetOnLoad then initialTransform else st.currentTransform)) ∧
    load_mesh st lower upper true resetOnLoad = st := by
  cases resetOnLoad <;>
    simp [load_mesh, resetTransform]

/-- C8 counterexample: `resetTransform` does not reset `center` or
`scale`; on a state with `center = (1, 2, 3)` and `scale = 5` both keep
their pre-reset values, contradicting a full reset to the creation
state. -/
theorem resetTransform_not_full_reset :
    (resetTransform ⟨1, ⟨1, 2, 3⟩, 5, 7, 0⟩).center = ⟨1, 2, 3⟩ ∧
    (resetTransform ⟨1, ⟨1, 2, 3⟩, 5, 7, 0⟩).scale = 5 ∧
    (resetTransform ⟨1, ⟨1, 2, 3⟩, 5, 7, 0⟩).center ≠ ⟨0, 0, 0⟩ ∧
    (resetTransform ⟨1, ⟨1, 2, 3⟩, 5, 7, 0⟩).scale ≠ 1 := by
  refine ⟨rfl, rfl, ?_, ?_⟩
  · intro hcontra
    rw [show (resetTransform ⟨1, ⟨1, 2, 3⟩, 5, 7, 0⟩).center = ⟨1, 2, 3⟩ from rfl] at hcontra
    have := congrArg QVec3.x hcontra
    norm_num at this
  · intro hcontra
    rw [show (resetTransform ⟨1, ⟨1, 2, 3⟩, 5, 7, 0⟩).scale = 5 from rfl] at hcontra
    norm_num at hcontra

/-- C8 amended: the explicit reset-view operation resets the orientation
to the canonical initial rotation and the zoom to 1, and leaves `center`,
`scale` and `perspective` at their pre-reset values. -/
theorem resetTransform_resets_orientation_and_zoom (st : CameraState) :
    (resetTransform st).currentTransform = initialTransform ∧
    (resetTransform st).zoom = 1 ∧
    (resetTransform st).center = st.center ∧
    (resetTransform st).scale = st.scale ∧
    (resetTransform st).perspective = st.perspective :=
  ⟨rfl, rfl, rfl, rfl, rfl⟩

/-- The hemisphere mapping always produces a unit vector. -/
lemma arcballVec_unit (x y : ℝ) :
    (arcballVec x y).x ^ 2 + (arcballVec x y).y ^ 2 + (arcballVec x y).z ^ 2 = 1 := by
  by_cases hc : x * x + y * y ≤ 1
  · have h1 : (0 : ℝ) ≤ 1 - (x * x + y * y) := by linarith
    simp only [arcballVec, hc, if_pos]
    rw [Real.sq_sqrt h1]
    ring
  · have hs : (0 : ℝ) < x * x + y * y := by
      push_neg at hc
      linarith
    have hsq : Real.sqrt (x * x + y * y) ^ 2 = x * x + y * y :=
      Real.sq_sqrt (le_of_lt hs)
    have hsne : Real.sqrt (x * x + y * y) ≠ 0 :=
      ne_of_gt (Real.sqrt_pos.2 hs)
    simp only [arcballVec, hc, if_false]
    rw [div_pow, div_pow, hsq]
    field_simp
    ring

/-- C3: inside the unit disc the hemisphere map keeps `(x, y)` and sets
`z = sqrt(1 - x^2 - y^2) >= 0`; outside it normalizes `(x, y)` to the
unit circle with `z = 0`; in both cases the result is a unit vector. -/
theorem arcball_hemisphere_wellformed (x y : ℝ) :
    (x * x + y * y ≤ 1 →
      arcballVec x y = ⟨x, y, Real.sqrt (1 - (x * x + y * y))⟩ ∧
      0 ≤ (arcballVec x y).z) ∧
    (¬x * x + y * y ≤ 1 →
      arcballVec x y =
        ⟨x / Real.sqrt (x * x + y * y), y / Real.sqrt (x * x + y * y), 0⟩) ∧
    (arcballVec x y).x ^ 2 + (arcballVec x y).y ^ 2 + (arcballVec x y).z ^ 2 = 1 := by
  refine ⟨fun hc => ⟨?_, ?_⟩, fun hc => ?_, arcballVec_unit x y⟩
  · simp [arcballVec, hc]
  · simp [arcballVec, hc, Real.sqrt_nonneg]
  · simp [arcballVec, hc]

/-- Witness for C3, at an interior point and an exterior point. -/
theorem arcball_hemisphere_wellformed_witness :
    ((0 : ℝ) * 0 + 0 * 0 ≤ 1 ∧
      arcballVec 0 0 = ⟨0, 0, Real.sqrt (1 - ((0 : ℝ) * 0 + 0 * 0))⟩) ∧
    (¬(3 : ℝ) * 3 + 4 * 4 ≤ 1 ∧
      arcballVec 3 4 =
        ⟨3 / Real.sqrt ((3 : ℝ) * 3 + 4 * 4), 4 / Real.sqrt ((3 : ℝ) * 3 + 4 * 4), 0⟩) := by
  constructor
  · exact ⟨by norm_num, ((arcball_hemisphere_wellformed 0 0).1 (by norm_num)).1⟩
  · exact ⟨by norm_num, (arcball_hemisphere_wellformed 3 4).2.1 (by norm_num)⟩

/-- The dot product of two unit 3-vectors is at least -1. -/
lemma dot_ge_neg_one {a b : QVec3} (ha : a.x ^ 2 + a.y ^ 2 + a.z ^ 2 = 1)
    (hb : b.x ^ 2 + b.y ^ 2 + b.z ^ 2 = 1) : -1 ≤ QVec3.dot a b := by
  have h1 := sq_nonneg (a.x + b.x)
  have h2 := sq_nonneg (a.y + b.y)
  have h3 := sq_nonneg (a.z + b.z)
  rw [QVec3.dot]
  nlinarith

/-- C2: the arcball angle equals `acos` of the dot product clamped to
`[-1, 1]` on both sides (the one-sided `min` in the code coincides with
the two-sided clamp because the dot product of the two unit hemisphere
vectors is provably at least -1), converted to degrees, and it always
lies in `[0, 180]` — including `p1 = p2` and `p1 = -p2`. -/
theorem arcball_angle_bounded (p1 p2 : ℝ × ℝ) :
    arcballAngle p1 p2 =
      Real.arccos (max (-1) (min 1
        (QVec3.dot (arcballVec p1.1 p1.2) (arcballVec p2.1 p2.2)))) * 180 / Real.pi ∧
    0 ≤ arcballAngle p1 p2 ∧ arcballAngle p1 p2 ≤ 180 := by
  have h1 := arcballVec_unit p1.1 p1.2
  have h2 := arcballVec_unit p2.1 p2.2
  have hge : -1 ≤ QVec3.dot (arcballVec p1.1 p1.2) (arcballVec p2.1 p2.2) :=
    dot_ge_neg_one h1 h2
  have hmax : max (-1) (min 1
      (QVec3.dot (arcballVec p1.1 p1.2) (arcballVec p2.1 p2.2))) =
      min 1 (QVec3.dot (arcballVec p1.1 p1.2) (arcballVec p2.1 p2.2)) :=
    max_eq_right (le_min (by norm_num) hge)
  have hπ := Real.pi_pos
  refine ⟨by rw [hmax, arcballAngle], ?_, ?_⟩
  · apply div_nonneg _ (le_of_lt hπ)
    exact mul_nonneg (Real.arccos_nonneg _) (by norm_num)
  · rw [arcballAngle, div_le_iff hπ]
    nlinarith [Real.arccos_le_pi (min 1
      (QVec3.dot (arcballVec p1.1 p1.2) (arcballVec p2.1 p2.2)))]

/-- The homogeneous coordinates `(x, y, z, 1)` of a 3-vector. -/
def toHom (v : QVec3) : Fin 4 → ℝ :=
  fun i => if i = 0 then v.x else if i = 1 then v.y else if i = 2 then v.z else 1

/-- The inverse of the closed-form view matrix. -/
def viewMatInv (ax ay p : ℝ) : Mat4 :=
  Matrix.of fun i j =>
    if i = 0 ∧ j = 0 then ax⁻¹
    else if i = 1 ∧ j = 1 then ay⁻¹
    else if i = 2 ∧ j = 2 then 2
    else if i = 3 ∧ j = 2 then -2 * p
    else if i = 3 ∧ j = 3 then 1
    else 0

/-- A matrix whose bottom row is that of the identity (an affine map). -/
def hasAffineRow (m : Mat4) : Prop := ∀ j, m 3 j = (1 : Mat4) 3 j

/-- A matrix whose last column is that of the identity (no translation
part). -/
def hasNoTranslation (m : Mat4) : Prop := ∀ i, m i 3 = (1 : Mat4) i 3

/-- If a point lands on homogeneous coordinates with w-component 1, the
Qt point map returns exactly those coordinates. -/
lemma mapPoint_eq_of_hom {m : Mat4} {v u : QVec3}
    (h : m.mulVec (toHom v) = toHom u) : mapPoint m v = u := by
  have h0 := congrFun h 0
  have h1 := congrFun h 1
  have h2 := congrFun h 2
  have h3 := congrFun h 3
  simp [Matrix.mulVec, Matrix.dotProduct, Fin.sum_univ_four, toHom] at h0 h1 h2 h3
  simp only [mapPoint, h0, h1, h2, h3]
  norm_num

/-- Translations compose by adding the offsets; in particular opposite
offsets cancel. -/
lemma translateMat_mul_neg (v : QVec3) :
    translateMat v * translateMat (-v) = 1 := by
  ext i j
  fin_cases i <;> fin_cases j <;>
    simp [translateMat, Matrix.mul_apply, Fin.sum_univ_four, Matrix.one_apply]

/-- Inversion of a translation is the opposite translation. -/
lemma inverted_translateMat (v : QVec3) :
    inverted (translateMat v) = translateMat (-v) :=
  Matrix.inv_eq_right_inv (translateMat_mul_neg v)

/-- A diagonal scaling by nonzero factors is inverted entrywise. -/
lemma scaleMat_mul_inv {sx sy sz : ℝ} (hx : sx ≠ 0) (hy : sy ≠ 0) (hz : sz ≠ 0) :
    scaleMat sx sy sz * scaleMat sx⁻¹ sy⁻¹ sz⁻¹ = 1 := by
  ext i j
  fin_cases i <;> fin_cases j <;>
    simp [scaleMat, Matrix.mul_apply, Fin.sum_univ_four, Matrix.one_apply,
      mul_inv_cancel₀, hx, hy, hz]

/-- Inversion of a nonzero diagonal scaling. -/
lemma inverted_scaleMat {sx sy sz : ℝ} (hx : sx ≠ 0) (hy : sy ≠ 0) (hz : sz ≠ 0) :
    inverted (scaleMat sx sy sz) = scaleMat sx⁻¹ sy⁻¹ sz⁻¹ :=
  Matrix.inv_eq_right_inv (scaleMat_mul_inv hx hy hz)

/-- The closed-form view matrix times its candidate inverse is the
identity. -/
lemma viewMat_mul_inv {ax ay : ℝ} (p : ℝ) (hax : ax ≠ 0) (hay : ay ≠ 0) :
    viewMat ax ay p * viewMatInv ax ay p = 1 := by
  ext i j
  fin_cases i <;> fin_cases j <;>
    simp [viewMat, viewMatInv, Matrix.mul_apply, Fin.sum_univ_four,
      Matrix.one_apply, mul_inv_cancel₀, hax, hay] <;>
    first | ring | norm_num

/-- Inversion of the closed-form view matrix. -/
lemma inverted_viewMat {ax ay : ℝ} (p : ℝ) (hax : ax ≠ 0) (hay : ay ≠ 0) :
    inverted (viewMat ax ay p) = viewMatInv ax ay p :=
  Matrix.inv_eq_right_inv (viewMat_mul_inv p hax hay)

/-- A right inverse of an affine-row matrix has an affine row. -/
lemma inv_affineRow {A B : Mat4} (hAB : A * B = 1) (hA : hasAffineRow A) :
    hasAffineRow B := by
  intro j
  have h := congrFun (congrFun hAB 3) j
  simp only [Matrix.mul_apply, Fin.sum_univ_four, hA 0, hA 1, hA 2, hA 3,
    Matrix.one_apply] at h
  simpa [Matrix.one_apply] using h

/-- A left inverse of a translation-free matrix is translation-free. -/
lemma inv_noTranslation {A B : Mat4} (hBA : B * A = 1) (hA : hasNoTranslation A) :
    hasNoTranslation B := by
  intro i
  have h := congrFun (congrFun hBA i) 3
  simp only [Matrix.mul_apply, Fin.sum_univ_four, hA 0, hA 1, hA 2, hA 3,
    Matrix.one_apply] at h
  simpa [Matrix.one_apply] using h

/-- Applying the view-matrix inverse to a homogeneous z = 0 point divides
by the diagonal and keeps w = 1. -/
lemma viewMatInv_mulVec (ax ay p : ℝ) (v : QVec3) (hv : v.z = 0) :
    (viewMatInv ax ay p).mulVec (toHom v) = toHom ⟨v.x / ax, v.y / ay, 0⟩ := by
  funext i
  fin_cases i <;>
    simp [viewMatInv, toHom, Matrix.mulVec, Matrix.dotProduct,
      Fin.sum_univ_four, hv] <;>
    ring

/-- An affine, translation-free matrix maps homogeneous points through
its upper 3x3 block. -/
lemma affine_mulVec {B : Mat4} (hr : hasAffineRow B) (hc : hasNoTranslation B)
    (u : QVec3) : B.mulVec (toHom u) = toHom (mapVector B u) := by
  funext i
  fin_cases i <;>
    simp [toHom, mapVector, Matrix.mulVec, Matrix.dotProduct, Fin.sum_univ_four,
      hc 0, hc 1, hc 2, hr 0, hr 1, hr 2, hr 3, Matrix.one_apply]

/-- A diagonal scaling acts componentwise on homogeneous points. -/
lemma scaleMat_mulVec (a b c : ℝ) (t : QVec3) :
    (scaleMat a b c).mulVec (toHom t) = toHom ⟨a * t.x, b * t.y, c * t.z⟩ := by
  funext i
  fin_cases i <;>
    simp [scaleMat, toHom, Matrix.mulVec, Matrix.dotProduct, Fin.sum_univ_four]

/-- A translation adds its offset to homogeneous points. -/
lemma translateMat_mulVec (cv t : QVec3) :
    (translateMat cv).mulVec (toHom t) = toHom (t + cv) := by
  funext i
  fin_cases i <;>
    simp [translateMat, toHom, Matrix.mulVec, Matrix.dotProduct, Fin.sum_univ_four]

/-- The linear part of the unprojection: the inverse orientation applied
to the aspect-corrected cursor vector (zoom, scale and center factored
out). -/
def unprojLin (Oi : Mat4) (w h : ℝ) (v : QVec3) : QVec3 :=
  mapVector Oi ⟨v.x / aspectX w h, v.y / aspectY w h, 0⟩

/-- The aspect x factor is nonzero on positive viewports. -/
lemma aspectX_ne_zero {w h : ℝ} (hw : 0 < w) (hh : 0 < h) : aspectX w h ≠ 0 := by
  rw [aspectX]
  split
  · exact div_ne_zero (neg_ne_zero.2 (ne_of_gt hh)) (ne_of_gt hw)
  · norm_num

/-- The aspect y factor is nonzero on positive viewports. -/
lemma aspectY_ne_zero {w h : ℝ} (hw : 0 < w) (hh : 0 < h) : aspectY w h ≠ 0 := by
  rw [aspectY]
  split
  · norm_num
  · exact div_ne_zero (ne_of_gt hw) (ne_of_gt hh)

/-- Wrapper for the reversed inverse of a product. -/
lemma inverted_mul (A B : Mat4) : inverted (A * B) = inverted B * inverted A :=
  Matrix.mul_inv_rev A B

/-- The inverse of the transform matrix in explicit affine form. -/
lemma inverted_transform (st : CameraState) (Oi : Mat4)
    (hO1 : st.currentTransform * Oi = 1) (hs : st.scale ≠ 0) :
    inverted (transform_matrix st) =
      translateMat st.center *
        (scaleMat st.scale⁻¹ st.scale⁻¹ st.scale⁻¹ * Oi) := by
  have hOinv : inverted st.currentTransform = Oi := Matrix.inv_eq_right_inv hO1
  rw [transform_matrix_eq, inverted_mul, inverted_mul, inverted_translateMat,
    QVec3.neg_neg', inverted_scaleMat hs hs hs, hOinv]

/-- The inverse of the view matrix in explicit form. -/
lemma inverted_view (st : CameraState) (w h : ℝ)
    (hz : st.zoom ≠ 0) (hw : 0 < w) (hh : 0 < h) :
    inverted (view_matrix st w h) =
      viewMatInv (aspectX w h * st.zoom) (aspectY w h * st.zoom)
        st.perspective := by
  rw [view_matrix_eq]
  exact inverted_viewMat _ (mul_ne_zero (aspectX_ne_zero hw hh) hz)
    (mul_ne_zero (aspectY_ne_zero hw hh) hz)

/-- The homogeneous unprojection of a z = 0 vector, in closed affine
form. -/
lemma unproj_mulVec_hom (st : CameraState) (Oi : Mat4) (w h : ℝ)
    (hO1 : st.currentTransform * Oi = 1)
    (hO2 : Oi * st.currentTransform = 1)
    (hrow : hasAffineRow st.currentTransform)
    (hcol : hasNoTranslation st.currentTransform)
    (hs : st.scale ≠ 0) (hz : st.zoom ≠ 0) (hw : 0 < w) (hh : 0 < h)
    (v : QVec3) (hv : v.z = 0) :
    (inverted (transform_matrix st) * inverted (view_matrix st w h)).mulVec
        (toHom v) =
      toHom (st.center + (st.scale⁻¹ * st.zoom⁻¹) • unprojLin Oi w h v) := by
  have hax := aspectX_ne_zero hw hh
  have hay := aspectY_ne_zero hw hh
  rw [inverted_transform st Oi hO1 hs, inverted_view st w h hz hw hh]
  rw [mul_assoc, mul_assoc]
  rw [← Matrix.mulVec_mulVec, ← Matrix.mulVec_mulVec, ← Matrix.mulVec_mulVec]
  rw [viewMatInv_mulVec _ _ _ v hv]
  rw [affine_mulVec (inv_affineRow hO1 hrow) (inv_noTranslation hO2 hcol)]
  rw [scaleMat_mulVec, translateMat_mulVec]
  refine congrArg toHom ?_
  ext <;>
    simp only [unprojLin, mapVector, QVec3.add_x, QVec3.add_y, QVec3.add_z,
      QVec3.smul_x, QVec3.smul_y, QVec3.smul_z] <;>
    field_simp <;>
    ring

/-- Closed form of the unprojection on z = 0 vectors: the old center plus
the zoom- and scale-attenuated linear image of the cursor vector. -/
lemma unprojectPoint_closed (st : CameraState) (Oi : Mat4) (w h : ℝ)
    (hO1 : st.currentTransform * Oi = 1)
    (hO2 : Oi * st.currentTransform = 1)
    (hrow : hasAffineRow st.currentTransform)
    (hcol : hasNoTranslation st.currentTransform)
    (hs : st.scale ≠ 0) (hz : st.zoom ≠ 0) (hw : 0 < w) (hh : 0 < h)
    (v : QVec3) (hv : v.z = 0) :
    unprojectPoint st w h v =
      st.center + (st.scale⁻¹ * st.zoom⁻¹) • unprojLin Oi w h v :=
  mapPoint_eq_of_hom
    (unproj_mulVec_hom st Oi w h hO1 hO2 hrow hcol hs hz hw hh v hv)

/-- Modelled from the spec: the renderer consumes `transform_matrix` and
`view_matrix` (section 4.4) and maps each world point to normalized
device coordinates by applying the transform and then the view matrix,
with the projective division driven by the perspective entry; the code
of this step is the GLSL vertex shader (`view_matrix * transform_matrix
* vertex`), which is not under `src/`. -/
def projectPoint (st : CameraState) (w h : ℝ) (p : QVec3) : QVec3 :=
  mapPoint (view_matrix st w h * transform_matrix st) p

/-- Modelled from the spec: the GL normalized device coordinates of a Qt
cursor pixel. Qt pixels have the origin at the top left with y pointing
down; GL NDC has the origin at the viewport center with y pointing up
(the `glViewport` mapping of the resize handler), giving
`(px/(w/2) - 1, 1 - py/(h/2))`. -/
def cursorNDC (w h px py : ℝ) : QVec3 :=
  ⟨px / (0.5 * w) - 1, 1 - py / (0.5 * h), 0⟩

/-- The cursor vector built by `wheelEvent` is the negation of the
cursor's NDC position. -/
lemma cursorNDC_eq_neg_wheelVec (w h px py : ℝ) :
    cursorNDC w h px py = -wheelVec w h px py := by
  ext <;> simp [cursorNDC, wheelVec]

/-- The transform matrix times its explicit inverse is the identity. -/
lemma transform_mul_inverted (st : CameraState) (Oi : Mat4)
    (hO1 : st.currentTransform * Oi = 1) (hs : st.scale ≠ 0) :
    transform_matrix st * inverted (transform_matrix st) = 1 := by
  have h1 : translateMat (-st.center) * translateMat st.center = 1 := by
    have := translateMat_mul_neg (-st.center)
    rwa [QVec3.neg_neg'] at this
  have h2 : scaleMat st.scale st.scale st.scale *
      scaleMat st.scale⁻¹ st.scale⁻¹ st.scale⁻¹ = 1 := scaleMat_mul_inv hs hs hs
  rw [inverted_transform st Oi hO1 hs, transform_matrix_eq]
  calc st.currentTransform * scaleMat st.scale st.scale st.scale *
        translateMat (-st.center) *
        (translateMat st.center *
          (scaleMat st.scale⁻¹ st.scale⁻¹ st.scale⁻¹ * Oi))
      = st.currentTransform *
          (scaleMat st.scale st.scale st.scale *
            ((translateMat (-st.center) * translateMat st.center) *
              (scaleMat st.scale⁻¹ st.scale⁻¹ st.scale⁻¹ * Oi))) := by
        simp only [Matrix.mul_assoc]
    _ = st.currentTransform *
          (scaleMat st.scale st.scale st.scale *
            (scaleMat st.scale⁻¹ st.scale⁻¹ st.scale⁻¹ * Oi)) := by
        rw [h1, Matrix.one_mul]
    _ = st.currentTransform * Oi := by
        rw [← Matrix.mul_assoc (scaleMat st.scale st.scale st.scale), h2,
          Matrix.one_mul]
    _ = 1 := hO1

/-- The view matrix times its explicit inverse is the identity. -/
lemma view_mul_inverted (st : CameraState) (w h : ℝ)
    (hz : st.zoom ≠ 0) (hw : 0 < w) (hh : 0 < h) :
    view_matrix st w h * inverted (view_matrix st w h) = 1 := by
  rw [inverted_view st w h hz hw hh, view_matrix_eq]
  exact viewMat_mul_inv _ (mul_ne_zero (aspectX_ne_zero hw hh) hz)
    (mul_ne_zero (aspectY_ne_zero hw hh) hz)

/-- Projecting the unprojection of a z = 0 vector gives back the vector:
the unprojection really is the world point rendered at that NDC
position. -/
lemma projectPoint_unprojectPoint (st : CameraState) (Oi : Mat4) (w h : ℝ)
    (hO1 : st.currentTransform * Oi = 1)
    (hO2 : Oi * st.currentTransform = 1)
    (hrow : hasAffineRow st.currentTransform)
    (hcol : hasNoTranslation st.currentTransform)
    (hs : st.scale ≠ 0) (hz : st.zoom ≠ 0) (hw : 0 < w) (hh : 0 < h)
    (x : QVec3) (hx : x.z = 0) :
    projectPoint st w h (unprojectPoint st w h x) = x := by
  have hhom : toHom (unprojectPoint st w h x) =
      (inverted (transform_matrix st) * inverted (view_matrix st w h)).mulVec
        (toHom x) := by
    rw [unproj_mulVec_hom st Oi w h hO1 hO2 hrow hcol hs hz hw hh x hx]
    rw [unprojectPoint_closed st Oi w h hO1 hO2 hrow hcol hs hz hw hh x hx]
  have hVT : view_matrix st w h * transform_matrix st *
      (inverted (transform_matrix st) * inverted (view_matrix st w h)) = 1 := by
    calc view_matrix st w h * transform_matrix st *
        (inverted (transform_matrix st) * inverted (view_matrix st w h))
        = view_matrix st w h *
            ((transform_matrix st * inverted (transform_matrix st)) *
              inverted (view_matrix st w h)) := by
          simp only [Matrix.mul_assoc]
      _ = view_matrix st w h * inverted (view_matrix st w h) := by
          rw [transform_mul_inverted st Oi hO1 hs, Matrix.one_mul]
      _ = 1 := view_mul_inverted st w h hz hw hh
  apply mapPoint_eq_of_hom
  rw [hhom, Matrix.mulVec_mulVec, hVT, Matrix.one_mulVec]

/-- The wheel zoom update never maps a nonzero zoom to zero. -/
lemma iterate_ne_zero {f : ℝ → ℝ} (hf : ∀ t, t ≠ 0 → f t ≠ 0) :
    ∀ (n : ℕ) (z : ℝ), z ≠ 0 → f^[n] z ≠ 0 := by
  intro n
  induction n with
  | zero => intro z hz; simpa using hz
  | succ n ih =>
    intro z hz
    rw [Function.iterate_succ_apply]
    exact ih _ (hf z hz)

/-- The wheel zoom update preserves nonzeroness. -/
lemma wheelZoom_ne_zero {z : ℝ} (hz : z ≠ 0) (d : ℤ) (invert : Bool) :
    wheelZoom z d invert ≠ 0 := by
  have hdn : ∀ t : ℝ, t ≠ 0 → zoomStepDown invert t ≠ 0 := by
    intro t ht
    cases invert <;> simp only [zoomStepDown, if_true, if_false, Bool.false_eq_true]
    · exact mul_ne_zero ht (by norm_num)
    · exact div_ne_zero ht (by norm_num)
  have hup : ∀ t : ℝ, t ≠ 0 → zoomStepUp invert t ≠ 0 := by
    intro t ht
    cases invert <;> simp only [zoomStepUp, if_true, if_false, Bool.false_eq_true]
    · exact div_ne_zero ht (by norm_num)
    · exact mul_ne_zero ht (by norm_num)
  rw [wheelZoom]
  split
  · exact iterate_ne_zero hdn _ z hz
  split
  · exact iterate_ne_zero hup _ z hz
  · exact hz

/-- One wheel event leaves the unprojection of the cursor's NDC position
(the negation of the code's cursor vector) unchanged. -/
lemma wheelEvent_unproj_invariant (st : CameraState) (Oi : Mat4)
    (invert : Bool) (w h px py : ℝ) (d : ℤ)
    (hO1 : st.currentTransform * Oi = 1)
    (hO2 : Oi * st.currentTransform = 1)
    (hrow : hasAffineRow st.currentTransform)
    (hcol : hasNoTranslation st.currentTransform)
    (hs : st.scale ≠ 0) (hz : st.zoom ≠ 0) (hw : 0 < w) (hh : 0 < h) :
    unprojectPoint (wheelEvent st invert w h px py d) w h
        (-wheelVec w h px py) =
      unprojectPoint st w h (-wheelVec w h px py) := by
  have hv : (wheelVec w h px py).z = 0 := rfl
  have hnv : (-wheelVec w h px py).z = 0 := by simp [hv]
  have hz1 : wheelZoom st.zoom d invert ≠ 0 := wheelZoom_ne_zero hz d invert
  have ha := unprojectPoint_closed st Oi w h hO1 hO2 hrow hcol hs hz hw hh
    (wheelVec w h px py) hv
  have ha' := unprojectPoint_closed st Oi w h hO1 hO2 hrow hcol hs hz hw hh
    (-wheelVec w h px py) hnv
  have hb := unprojectPoint_closed { st with zoom := wheelZoom st.zoom d invert }
    Oi w h hO1 hO2 hrow hcol hs hz1 hw hh (wheelVec w h px py) hv
  have hfin := unprojectPoint_closed (wheelEvent st invert w h px py d)
    Oi w h hO1 hO2 hrow hcol hs hz1 hw hh (-wheelVec w h px py) hnv
  rw [show (wheelEvent st invert w h px py d).scale = st.scale from rfl,
    show (wheelEvent st invert w h px py d).zoom = wheelZoom st.zoom d invert
      from rfl] at hfin
  have hcen : (wheelEvent st invert w h px py d).center =
      st.center +
        (unprojectPoint { st with zoom := wheelZoom st.zoom d invert } w h
            (wheelVec w h px py) -
          unprojectPoint st w h (wheelVec w h px py)) := rfl
  rw [hfin, hcen, ha, hb, ha']
  ext <;>
    simp only [unprojLin, mapVector, QVec3.add_x, QVec3.add_y, QVec3.add_z,
      QVec3.sub_x, QVec3.sub_y, QVec3.sub_z, QVec3.smul_x, QVec3.smul_y,
      QVec3.smul_z, QVec3.neg_x, QVec3.neg_y, QVec3.neg_z] <;>
    rw [neg_div, neg_div] <;>
    ring

/-- Any sequence of wheel events leaves the unprojection of the cursor's
NDC position unchanged. -/
lemma wheelEvents_unproj_invariant (invert : Bool) (w h px py : ℝ) (Oi : Mat4) :
    ∀ (ds : List ℤ) (st : CameraState),
      st.currentTransform * Oi = 1 → Oi * st.currentTransform = 1 →
      hasAffineRow st.currentTransform → hasNoTranslation st.currentTransform →
      st.scale ≠ 0 → st.zoom ≠ 0 → 0 < w → 0 < h →
      unprojectPoint (ds.foldl (fun s d => wheelEvent s invert w h px py d) st)
          w h (-wheelVec w h px py) =
        unprojectPoint st w h (-wheelVec w h px py) := by
  intro ds
  induction ds with
  | nil => intro st _ _ _ _ _ _ _ _; rfl
  | cons d t ih =>
    intro st hO1 hO2 hrow hcol hs hz hw hh
    have hstep := wheelEvent_unproj_invariant st Oi invert w h px py d
      hO1 hO2 hrow hcol hs hz hw hh
    have hnext := ih (wheelEvent st invert w h px py d) hO1 hO2 hrow hcol hs
      (wheelZoom_ne_zero hz d invert) hw hh
    simp only [List.foldl_cons]
    rw [hnext, hstep]

/-- Wheel events keep the orientation and scale, and keep the zoom
nonzero. -/
lemma wheelEvents_fields (invert : Bool) (w h px py : ℝ) :
    ∀ (ds : List ℤ) (st : CameraState),
      (ds.foldl (fun s d => wheelEvent s invert w h px py d) st).currentTransform =
          st.currentTransform ∧
      (ds.foldl (fun s d => wheelEvent s invert w h px py d) st).scale =
          st.scale ∧
      (st.zoom ≠ 0 →
        (ds.foldl (fun s d => wheelEvent s invert w h px py d) st).zoom ≠ 0) := by
  intro ds
  induction ds with
  | nil => intro st; exact ⟨rfl, rfl, fun hz => hz⟩
  | cons d t ih =>
    intro st
    have h := ih (wheelEvent st invert w h px py d)
    simp only [List.foldl_cons]
    exact ⟨h.1, h.2.1, fun hz => h.2.2 (wheelZoom_ne_zero hz d invert)⟩

/-- C1: the wheel handler shifts `center` by exactly `b - a`, the
difference of the unprojections of the cursor vector after and before the
zoom update; consequently the world point under the cursor — the point
whose projection is the cursor's NDC position (the negation of the
code's cursor vector, both of whose axes are flipped) — is the same
before and after an arbitrary sequence of wheel deltas: its unprojection
is invariant and it still projects exactly to the cursor. -/
theorem wheel_zoom_about_cursor (st : CameraState) (Oi : Mat4) (invert : Bool)
    (w h px py : ℝ) (ds : List ℤ)
    (hO1 : st.currentTransform * Oi = 1)
    (hO2 : Oi * st.currentTransform = 1)
    (hrow : hasAffineRow st.currentTransform)
    (hcol : hasNoTranslation st.currentTransform)
    (hs : st.scale ≠ 0) (hz : st.zoom ≠ 0) (hw : 0 < w) (hh : 0 < h) :
    (∀ d : ℤ, (wheelEvent st invert w h px py d).center =
        st.center +
          (unprojectPoint { st with zoom := wheelZoom st.zoom d invert } w h
              (wheelVec w h px py) -
            unprojectPoint st w h (wheelVec w h px py))) ∧
    projectPoint st w h (unprojectPoint st w h (cursorNDC w h px py)) =
      cursorNDC w h px py ∧
    unprojectPoint (ds.foldl (fun s d => wheelEvent s invert w h px py d) st)
        w h (cursorNDC w h px py) =
      unprojectPoint st w h (cursorNDC w h px py) ∧
    projectPoint (ds.foldl (fun s d => wheelEvent s invert w h px py d) st)
        w h (unprojectPoint st w h (cursorNDC w h px py)) =
      cursorNDC w h px py := by
  have hndc : (cursorNDC w h px py).z = 0 := rfl
  have hflds := wheelEvents_fields invert w h px py ds st
  have hinv : unprojectPoint
      (ds.foldl (fun s d => wheelEvent s invert w h px py d) st) w h
        (cursorNDC w h px py) =
      unprojectPoint st w h (cursorNDC w h px py) := by
    rw [cursorNDC_eq_neg_wheelVec]
    exact wheelEvents_unproj_invariant invert w h px py Oi ds st
      hO1 hO2 hrow hcol hs hz hw hh
  refine ⟨fun d => rfl, ?_, hinv, ?_⟩
  · exact projectPoint_unprojectPoint st Oi w h hO1 hO2 hrow hcol hs hz hw hh
      _ hndc
  · rw [← hinv]
    have hO1f : (ds.foldl (fun s d => wheelEvent s invert w h px py d)
        st).currentTransform * Oi = 1 := by rw [hflds.1]; exact hO1
    have hO2f : Oi * (ds.foldl (fun s d => wheelEvent s invert w h px py d)
        st).currentTransform = 1 := by rw [hflds.1]; exact hO2
    have hrowf : hasAffineRow (ds.foldl (fun s d => wheelEvent s invert w h px py d)
        st).currentTransform := by rw [hflds.1]; exact hrow
    have hcolf : hasNoTranslation (ds.foldl (fun s d => wheelEvent s invert w h px py d)
        st).currentTransform := by rw [hflds.1]; exact hcol
    have hsf : (ds.foldl (fun s d => wheelEvent s invert w h px py d) st).scale ≠ 0 := by
      rw [hflds.2.1]; exact hs
    exact projectPoint_unprojectPoint _ Oi w h hO1f hO2f hrowf hcolf hsf
      (hflds.2.2 hz) hw hh _ hndc

/-- Witness for C1: orientation identity, unit scale and zoom, 200x200
viewport, cursor at the top-left pixel, one batched delta of 120. -/
theorem wheel_zoom_about_cursor_witness :
    ((⟨1, ⟨0, 0, 0⟩, 1, 1, 0⟩ : CameraState).currentTransform * 1 = 1) ∧
    ((⟨1, ⟨0, 0, 0⟩, 1, 1, 0⟩ : CameraState).scale ≠ 0) ∧
    unprojectPoint
        (([120] : List ℤ).foldl (fun s d => wheelEvent s false 200 200 0 0 d)
          ⟨1, ⟨0, 0, 0⟩, 1, 1, 0⟩) 200 200 (cursorNDC 200 200 0 0) =
      unprojectPoint ⟨1, ⟨0, 0, 0⟩, 1, 1, 0⟩ 200 200 (cursorNDC 200 200 0 0) := by
  refine ⟨Matrix.one_mul 1, one_ne_zero, ?_⟩
  exact (wheel_zoom_about_cursor ⟨1, ⟨0, 0, 0⟩, 1, 1, 0⟩ 1 false 200 200 0 0
    [120] (Matrix.one_mul 1) (Matrix.one_mul 1) (fun j => rfl) (fun i => rfl)
    one_ne_zero one_ne_zero (by norm_num) (by norm_num)).2.2.1

/-- C10 counterexample: two states that differ only in `center` produce
different post-pan centers for the same pan input, so the previous value
of `center` does contribute to the assigned value. -/
theorem pan_previous_center_contributes :
    (mouseMoveRight ⟨1, ⟨0, 0, 0⟩, 1, 1, 0⟩ 2 2 1 0).center = ⟨1, 0, 0⟩ ∧
    (mouseMoveRight ⟨1, ⟨1, 0, 0⟩, 1, 1, 0⟩ 2 2 1 0).center = ⟨2, 0, 0⟩ ∧
    (mouseMoveRight ⟨1, ⟨0, 0, 0⟩, 1, 1, 0⟩ 2 2 1 0).center ≠
      (mouseMoveRight ⟨1, ⟨1, 0, 0⟩, 1, 1, 0⟩ 2 2 1 0).center := by
  have e0 : (mouseMoveRight ⟨1, ⟨0, 0, 0⟩, 1, 1, 0⟩ 2 2 1 0).center = ⟨1, 0, 0⟩ := by
    rw [show (mouseMoveRight ⟨1, ⟨0, 0, 0⟩, 1, 1, 0⟩ 2 2 1 0).center =
        unprojectPoint ⟨1, ⟨0, 0, 0⟩, 1, 1, 0⟩ 2 2
          ⟨-1 / (0.5 * 2), 0 / (0.5 * 2), 0⟩ from rfl]
    rw [unprojectPoint_closed ⟨1, ⟨0, 0, 0⟩, 1, 1, 0⟩ 1 2 2 (Matrix.one_mul 1)
      (Matrix.one_mul 1) (fun j => rfl) (fun i => rfl) one_ne_zero one_ne_zero
      (by norm_num) (by norm_num) _ rfl]
    ext <;> norm_num [unprojLin, mapVector, aspectX, aspectY, Matrix.one_apply] <;>
      decide
  have e1 : (mouseMoveRight ⟨1, ⟨1, 0, 0⟩, 1, 1, 0⟩ 2 2 1 0).center = ⟨2, 0, 0⟩ := by
    rw [show (mouseMoveRight ⟨1, ⟨1, 0, 0⟩, 1, 1, 0⟩ 2 2 1 0).center =
        unprojectPoint ⟨1, ⟨1, 0, 0⟩, 1, 1, 0⟩ 2 2
          ⟨-1 / (0.5 * 2), 0 / (0.5 * 2), 0⟩ from rfl]
    rw [unprojectPoint_closed ⟨1, ⟨1, 0, 0⟩, 1, 1, 0⟩ 1 2 2 (Matrix.one_mul 1)
      (Matrix.one_mul 1) (fun j => rfl) (fun i => rfl) one_ne_zero one_ne_zero
      (by norm_num) (by norm_num) _ rfl]
    ext <;> norm_num [unprojLin, mapVector, aspectX, aspectY, Matrix.one_apply] <;>
      decide
  refine ⟨e0, e1, ?_⟩
  rw [e0, e1]
  intro hc
  have := congrArg QVec3.x hc
  norm_num at this

/-- C10 amended: the pan branch assigns `center` the unprojection of the
pixel-delta vector; because the inverted transform matrix translates by
the previous `center`, the assigned value equals the previous center plus
a center-independent increment — an accumulation in disguise, not a
replacement. No other camera field changes. -/
theorem pan_assigns_unprojection_accumulating (st : CameraState) (Oi : Mat4)
    (w h dx dy : ℝ)
    (hO1 : st.currentTransform * Oi = 1)
    (hO2 : Oi * st.currentTransform = 1)
    (hrow : hasAffineRow st.currentTransform)
    (hcol : hasNoTranslation st.currentTransform)
    (hs : st.scale ≠ 0) (hz : st.zoom ≠ 0) (hw : 0 < w) (hh : 0 < h) :
    (mouseMoveRight st w h dx dy).center =
        unprojectPoint st w h ⟨-dx / (0.5 * w), dy / (0.5 * h), 0⟩ ∧
    (mouseMoveRight st w h dx dy).center =
        st.center + (st.scale⁻¹ * st.zoom⁻¹) •
          unprojLin Oi w h ⟨-dx / (0.5 * w), dy / (0.5 * h), 0⟩ ∧
    (mouseMoveRight st w h dx dy).currentTransform = st.currentTransform ∧
    (mouseMoveRight st w h dx dy).scale = st.scale ∧
    (mouseMoveRight st w h dx dy).zoom = st.zoom ∧
    (mouseMoveRight st w h dx dy).perspective = st.perspective := by
  refine ⟨rfl, ?_, rfl, rfl, rfl, rfl⟩
  exact unprojectPoint_closed st Oi w h hO1 hO2 hrow hcol hs hz hw hh _ rfl

/-- Witness for the amended C10 at a concrete state and pan input. -/
theorem pan_assigns_unprojection_witness :
    ((⟨1, ⟨0, 0, 0⟩, 1, 1, 0⟩ : CameraState).scale ≠ 0) ∧
    (mouseMoveRight ⟨1, ⟨0, 0, 0⟩, 1, 1, 0⟩ 2 2 1 0).center =
      (⟨1, ⟨0, 0, 0⟩, 1, 1, 0⟩ : CameraState).center +
        ((⟨1, ⟨0, 0, 0⟩, 1, 1, 0⟩ : CameraState).scale⁻¹ *
            (⟨1, ⟨0, 0, 0⟩, 1, 1, 0⟩ : CameraState).zoom⁻¹) •
          unprojLin 1 2 2 ⟨-1 / (0.5 * 2), 0 / (0.5 * 2), 0⟩ := by
  refine ⟨one_ne_zero, ?_⟩
  exact (pan_assigns_unprojection_accumulating ⟨1, ⟨0, 0, 0⟩, 1, 1, 0⟩ 1 2 2 1 0
    (Matrix.one_mul 1) (Matrix.one_mul 1) (fun j => rfl) (fun i => rfl)
    one_ne_zero one_ne_zero (by norm_num) (by norm_num)).2.1

end Fstl
